import Mathlib

/-!
Verification development for the annovate annotation-file library.

Strings of the Rust source are modelled as lists of characters (`Str`).
The parser (`parse_annovate`), the serializer (`serialize`), the bootstrap
content (`create_new_annovate_content`) and the public mutation API of the
`Annovate` store are translated from `src/lib.rs`.  The `HashMap` of the
source is modelled as an association list with unique keys; its iteration
order (unspecified in the source) is the list order.
-/

set_option maxHeartbeats 1000000

abbrev Str := List Char

/-- One key/value/context record, from `struct Annotation` in `lib.rs`. -/
structure Annotation where
  key : Str
  value : Str
  context : Str
deriving DecidableEq, Repr

abbrev AnnoContainer := List Annotation

/-- The in-memory store, from `struct Annovate` in `lib.rs`.  The `filename`
and `save_changes` fields of the Rust struct are IO plumbing never read by
the core operations and are omitted.  `files` models the `HashMap`. -/
structure Annovate where
  dir : AnnoContainer
  files : List (Str × AnnoContainer)
deriving DecidableEq, Repr

/-- `enum AnnoError`.  The `IOError` variant wraps `io::Error` and cannot
arise in the pure model, so only `ParseError` is represented. -/
inductive AnnoError where
  | ParseError (line : Nat) (symbol : Char)
deriving DecidableEq, Repr

/-- The six ASCII whitespace characters.  Rust's `trim_right` strips per
`char::is_whitespace` (the Unicode `White_Space` property); the faithful
set is `isWS_unicode` below.  This restricted set is what the ASCII
fragment of the classifier (`extract_line_parts`) uses. -/
def isWS (c : Char) : Bool :=
  c == ' ' || c == '\t' || c == '\n' || c == '\r' || c == '\x0b' || c == '\x0c'

/-- `str::trim_right` restricted to ASCII whitespace; the faithful Unicode
version is `trimRight_unicode`. -/
def trimRight (s : Str) : Str :=
  ((s.reverse).dropWhile isWS).reverse

/-- `fn extract_line_parts` restricted to lines whose first character is a
single UTF-8 byte (its total, non-panicking fragment): first char as
leader, rest right-trimmed; an empty line yields the sentinel `' '`
leader.  The faithful model, including the panic of the byte slice
`line[ 1.. ]` on a multi-byte first character and the Unicode whitespace
set, is `extract_line_parts_rust`. -/
def extract_line_parts (line : Str) : Char × Str :=
  match line with
  | [] => (' ', [])
  | c :: rest => (c, trimRight rest)

/-- The number of bytes of a character's UTF-8 encoding.  The slice
`line[ 1.. ]` in `fn extract_line_parts` cuts at byte offset 1, which is a
character boundary exactly when the first character is one byte long. -/
def utf8Len (c : Char) : Nat :=
  if c.val ≤ 0x7F then 1
  else if c.val ≤ 0x7FF then 2
  else if c.val ≤ 0xFFFF then 3
  else 4

/-- Rust's `char::is_whitespace`: the Unicode `White_Space` property. -/
def isWS_unicode (c : Char) : Bool :=
  c == '\t' || c == '\n' || c == '\x0b' || c == '\x0c' || c == '\r' || c == ' ' ||
  c == '\u0085' || c == '\u00A0' || c == '\u1680' ||
  (decide ('\u2000' ≤ c) && decide (c ≤ '\u200A')) ||
  c == '\u2028' || c == '\u2029' || c == '\u202F' || c == '\u205F' || c == '\u3000'

/-- `str::trim_right` with the faithful Unicode whitespace set. -/
def trimRight_unicode (s : Str) : Str :=
  ((s.reverse).dropWhile isWS_unicode).reverse

/-- Faithful model of `fn extract_line_parts`: the Rust function reads the
first character and then byte-slices `line[ 1.. ]`, which panics when that
character occupies more than one byte — `none` models the panic.  The
remainder is right-trimmed of Unicode whitespace. -/
def extract_line_parts_rust (line : Str) : Option (Char × Str) :=
  match line with
  | [] => some (' ', [])
  | c :: rest =>
    if utf8Len c = 1 then some (c, trimRight_unicode rest) else none

/-- `fn test_leader`: succeed iff the previous leader is a legal
predecessor, otherwise report the current leader at the current line. -/
def test_leader (last_leader : Char) (legal_chars : Str) (current_leader : Char)
    (line_no : Nat) : Except AnnoError Unit :=
  if last_leader ∈ legal_chars then .ok ()
  else .error (.ParseError line_no current_leader)

/-- Strip one trailing carriage return, as `BufRead::lines` / `str::lines`
do on newline-terminated lines. -/
def stripCR (s : Str) : Str :=
  if s.getLast? = some '\r' then s.dropLast else s

/-- Raw split on `'\n'`; the result is always non-empty. -/
def splitNL : Str → List Str
  | [] => [[]]
  | c :: rest =>
    if c = '\n' then [] :: splitNL rest
    else
      match splitNL rest with
      | [] => [[c]]
      | l :: ls => (c :: l) :: ls

/-- Turn raw chunks into Rust line semantics: every newline-terminated
chunk loses a trailing `'\r'`; a final unterminated chunk is kept verbatim,
and a final empty chunk (the text ended with `'\n'`) produces no line. -/
def rustLinesAux : List Str → List Str
  | [] => []
  | [l] => if l = [] then [] else [l]
  | l :: ls => stripCR l :: rustLinesAux ls

/-- The lines of a character stream, with the semantics of both
`BufRead::lines` (parser input) and `str::lines` (serializer values). -/
def linesOf (s : Str) : List Str := rustLinesAux (splitNL s)

/-- Lookup in the association-list model of the `HashMap`. -/
def hmGet (k : Str) : List (Str × AnnoContainer) → Option AnnoContainer
  | [] => none
  | p :: rest => if p.1 = k then some p.2 else hmGet k rest

/-- `HashMap::insert`: replace the value of an existing key, otherwise
add the binding. -/
def hmInsert (k : Str) (v : AnnoContainer) :
    List (Str × AnnoContainer) → List (Str × AnnoContainer)
  | [] => [(k, v)]
  | p :: rest => if p.1 = k then (k, v) :: rest else p :: hmInsert k v rest

/-- In-place update of the value bound to `k` (model of
`HashMap::get_mut` followed by a mutation; absent keys are untouched). -/
def hmModify (k : Str) (f : AnnoContainer → AnnoContainer) :
    List (Str × AnnoContainer) → List (Str × AnnoContainer)
  | [] => []
  | p :: rest => if p.1 = k then (p.1, f p.2) :: rest else p :: hmModify k f rest

/-- `HashMap::remove` (association lists built by this model have unique
keys, so removing the first match removes the only one). -/
def hmErase (k : Str) : List (Str × AnnoContainer) → List (Str × AnnoContainer)
  | [] => []
  | p :: rest => if p.1 = k then rest else p :: hmErase k rest

/-- `HashMap::entry(k).or_insert(vec![])` followed by `push(a)`. -/
def entryPush (k : Str) (a : Annotation ) :
    List (Str × AnnoContainer) → List (Str × AnnoContainer)
  | [] => [(k, [a])]
  | p :: rest => if p.1 = k then (p.1, p.2 ++ [a]) :: rest else p :: entryPush k a rest

/-- Commit a finished annotation, from the `'<'` branch of the parse loop:
into the directory list before any `@` line, into the current file's list
afterwards (`get_mut(..).unwrap().push`; the entry is present at every
reachable call site, absence is modelled as a no-op). -/
def commitAnno (wwd : Bool) (cf : Str) (a : Annotation ) (res : Annovate ) : Annovate :=
  if wwd then { res with dir := res.dir ++ [a] }
  else { res with files := hmModify cf (fun v => v ++ [a]) res.files }

/-- The `'='` branch of the parse loop: append one value line to the
pending value buffer, inserting a `'\n'` separator when the buffer is
already non-empty. -/
def appendValueLine (cur rest : Str) : Str :=
  (if cur ≠ [] then cur ++ ['\n'] else cur) ++ rest

/-- The mutable locals of the parse loop in `fn parse_annovate_file`. -/
structure ParseState where
  result : Annovate
  work_with_dir_fields : Bool
  current_file : Str
  current_key : Str
  current_value : Str
  last_leader : Char
  line_no : Nat
deriving DecidableEq, Repr

/-- The leader dispatch of the parse loop of `fn parse_annovate_file`,
shared by the total fragment (`parseLine`) and the faithful model
(`parseLine_rust`). -/
def parseLineParts (st : ParseState) (leader : Char) (rest : Str) :
    Except AnnoError ParseState :=
  if leader = '@' then
    match test_leader st.last_leader ['@', '<', ' '] leader st.line_no with
    | .error e => .error e
    | .ok _ => .ok { st with
        result := { st.result with files := hmInsert rest [] st.result.files },
        current_file := rest,
        work_with_dir_fields := false,
        last_leader := '@',
        line_no := st.line_no + 1 }
  else if leader = '>' then
    match test_leader st.last_leader ['@', '<', ' '] leader st.line_no with
    | .error e => .error e
    | .ok _ => .ok { st with
        current_key := rest,
        current_value := [],
        last_leader := '>',
        line_no := st.line_no + 1 }
  else if leader = '=' then
    match test_leader st.last_leader ['>', '='] leader st.line_no with
    | .error e => .error e
    | .ok _ => .ok { st with
        current_value := appendValueLine st.current_value rest,
        last_leader := '=',
        line_no := st.line_no + 1 }
  else if leader = '<' then
    match test_leader st.last_leader ['=', '>'] leader st.line_no with
    | .error e => .error e
    | .ok _ => .ok { st with
        result := commitAnno st.work_with_dir_fields st.current_file
          ⟨st.current_key, st.current_value, rest⟩ st.result,
        last_leader := '<',
        line_no := st.line_no + 1 }
  else
    .error (.ParseError st.line_no leader)

/-- One iteration of the parse loop of `fn parse_annovate_file`, over the
total fragment of the classifier. -/
def parseLine (st : ParseState) (line : Str) : Except AnnoError ParseState :=
  parseLineParts st (extract_line_parts line).1 (extract_line_parts line).2

/-- One iteration of the parse loop with the faithful classifier: `none`
models the classifier's panic; the leader dispatch is the same
`parseLineParts`. -/
def parseLine_rust (st : ParseState) (line : Str) :
    Option (Except AnnoError ParseState) :=
  (extract_line_parts_rust line).map (fun p => parseLineParts st p.1 p.2)

/-- The parse loop over a list of classified lines. -/
def parseLines : ParseState → List Str → Except AnnoError ParseState
  | st, [] => .ok st
  | st, l :: ls =>
    match parseLine st l with
    | .error e => .error e
    | .ok st' => parseLines st' ls

/-- The parse loop over a list of lines with the faithful per-line step;
`none` propagates the classifier's panic. -/
def parseLines_rust : ParseState → List Str → Option (Except AnnoError ParseState)
  | st, [] => some (.ok st)
  | st, l :: ls =>
    match parseLine_rust st l with
    | none => none
    | some (.error e) => some (.error e)
    | some (.ok st') => parseLines_rust st' ls

/-- Initial values of the parse-loop locals. -/
def initState : ParseState :=
  { result := ⟨[], []⟩,
    work_with_dir_fields := true,
    current_file := [],
    current_key := [],
    current_value := [],
    last_leader := ' ',
    line_no := 1 }

/-- `fn parse_annovate_file`, pure in the file contents: run the loop over
the lines, then require the last processed leader to be `'<'`. -/
def parse_annovate (contents : Str) : Except AnnoError Annovate :=
  match parseLines initState (linesOf contents) with
  | .error e => .error e
  | .ok st =>
    if st.last_leader = '<' then .ok st.result
    else .error (.ParseError st.line_no ' ')

/-- `fn parse_annovate_file` over the faithful per-line model: `none`
models the program panicking before any result is produced. -/
def parse_annovate_rust (contents : Str) : Option (Except AnnoError Annovate ) :=
  match parseLines_rust initState (linesOf contents) with
  | none => none
  | some (.error e) => some (.error e)
  | some (.ok st) =>
    if st.last_leader = '<' then some (.ok st.result)
    else some (.error (.ParseError st.line_no ' '))

/-- The lines written for one annotation by `write_annotations` in
`Annovate::save_as`: `>key`, one `=line` per line of the value, `<context`. -/
def annoLines (a : Annotation ) : List Str :=
  ('>' :: a.key) :: (((linesOf a.value).map (fun l => '=' :: l)) ++ [('<' :: a.context)])

/-- The lines written for a whole annotation container. -/
def containerLines (c : AnnoContainer) : List Str :=
  (c.map annoLines).flatten

/-- The lines written for the file sections: an `@filename` header per
registered file, followed by that file's annotation lines. -/
def filesLines (fs : List (Str × AnnoContainer)) : List Str :=
  (fs.map (fun p => ('@' :: p.1) :: containerLines p.2)).flatten

/-- The lines written by `Annovate::save_as`: the directory section first,
then the file sections. -/
def storeLines (s : Annovate ) : List Str :=
  containerLines s.dir ++ filesLines s.files

/-- The leader of the last line of the file sections (used to track the
parser's final state): the previous leader when there are no files,
`'@'` when the last file has no annotations, `'<'` otherwise. -/
def lastLeaderFiles (fs : List (Str × AnnoContainer)) (prev : Char) : Char :=
  match fs.getLast? with
  | none => prev
  | some p => if p.2.isEmpty then '@' else '<'

/-- Rejoin lines into the written stream: every line is `'\n'`-terminated. -/
def flattenLines (ls : List Str) : Str :=
  (ls.map (fun l => l ++ ['\n'])).flatten

/-- The full file contents produced by `Annovate::save_as`. -/
def serialize (s : Annovate ) : Str := flattenLines (storeLines s)

/-- The contents written by `fn create_new_annovate_file` for a timestamp
string and a creation reason. -/
def create_new_annovate_content (timestring reason : Str) : Str :=
  '>' :: ("creation time".toList) ++ '\n' ::
  '=' :: timestring ++ '\n' ::
  '<' :: timestring ++ (", ".toList) ++ reason ++ ['\n']

/-- `Annovate::get_files`. -/
def get_files (s : Annovate ) : List Str := s.files.map Prod.fst

/-- `Annovate::get_directory_annotations`. -/
def get_directory_annotations (s : Annovate ) : AnnoContainer := s.dir

/-- `Annovate::get_file_annotations`. -/
def get_file_annotations (s : Annovate ) (filename : Str) : Option AnnoContainer :=
  hmGet filename s.files

/-- `Annovate::add_directory_annotation`. -/
def add_directory_annotation (s : Annovate ) (anno : Annotation ) : Annovate :=
  { s with dir := s.dir ++ [anno] }

/-- `Annovate::remove_directory_annotation_entries`: retain the entries
whose key differs, return whether the length shrank. -/
def remove_directory_annotation_entries (s : Annovate ) (key : Str) :
    Annovate × Bool :=
  let newDir := s.dir.filter (fun x => x.key ≠ key)
  ({ s with dir := newDir }, decide (newDir.length < s.dir.length))

/-- `Annovate::add_file_annotation`. -/
def add_file_annotation (s : Annovate ) (filename : Str) (anno : Annotation ) :
    Annovate :=
  { s with files := entryPush filename anno s.files }

/-- `Annovate::remove_file_annotation_entries`. -/
def remove_file_annotation_entries (s : Annovate ) (filename key : Str) :
    Annovate × Bool :=
  match hmGet filename s.files with
  | some vals =>
    let newVals := vals.filter (fun x => x.key ≠ key)
    ({ s with files := hmModify filename (fun v => v.filter (fun x => x.key ≠ key)) s.files },
      decide (newVals.length < vals.length))
  | none => (s, false)

/-- `Annovate::drop_file_annotations`. -/
def drop_file_annotations (s : Annovate ) (filename : Str) : Annovate × Bool :=
  ({ s with files := hmErase filename s.files }, (hmGet filename s.files).isSome)

/-- The leader-transition table as written in the spec (start-of-file is
the sentinel `' '`): `@` after `@`/`<`/start, `>` after `@`/`<`/start,
`=` after `>`/`=`, `<` after `=`/`>`. -/
def spec_legal_transition (prev leader : Char) : Prop :=
  (leader = '@' ∧ prev ∈ (['@', '<', ' '] : List Char)) ∨
  (leader = '>' ∧ prev ∈ (['@', '<', ' '] : List Char)) ∨
  (leader = '=' ∧ prev ∈ (['>', '='] : List Char)) ∨
  (leader = '<' ∧ prev ∈ (['=', '>'] : List Char))

instance (prev leader : Char) : Decidable (spec_legal_transition prev leader) := by
  unfold spec_legal_transition
  infer_instance

/-- The parser's fold that reassembles a value from its `=`-line chunks. -/
def joinParse (ls : List Str) : Str :=
  ls.foldl (fun acc l => appendValueLine acc l) []

/-- A string usable verbatim as the payload of a serialized line: no
embedded newline and no trailing whitespace (so right-trimming on re-parse
is the identity). -/
def goodLine (s : Str) : Prop :=
  '\n' ∉ s ∧ trimRight s = s

instance (s : Str) : Decidable (goodLine s) := by
  unfold goodLine
  infer_instance

/-- A value that the parser reconstructs exactly from its serialized
`=`-lines: every line of the value is free of trailing whitespace, and
re-joining the lines with the parser's separator rule gives the value
back (this excludes values with a leading empty line, a trailing newline,
a CR-LF pair, or trailing whitespace on a line). -/
def goodValue (v : Str) : Prop :=
  (∀ l ∈ linesOf v, trimRight l = l) ∧ joinParse (linesOf v) = v

instance (v : Str) : Decidable (goodValue v) := by
  unfold goodValue
  infer_instance

/-- An annotation whose three strings survive serialization verbatim. -/
def goodAnno (a : Annotation ) : Prop :=
  goodLine a.key ∧ goodValue a.value ∧ goodLine a.context

instance (a : Annotation ) : Decidable (goodAnno a) := by
  unfold goodAnno
  infer_instance

/-- A store whose strings are all well-formed and whose filenames are
pairwise distinct (the `HashMap` representation invariant). -/
def WellFormed (s : Annovate ) : Prop :=
  (∀ a ∈ s.dir, goodAnno a) ∧
  (∀ p ∈ s.files, goodLine p.1 ∧ ∀ a ∈ p.2, goodAnno a) ∧
  (s.files.map Prod.fst).Nodup

instance (s : Annovate ) : Decidable (WellFormed s) := by
  unfold WellFormed
  infer_instance

/-- The serialized form ends with a `<` context line: the store is not
empty, and when files are registered the last one has at least one
annotation.  (Without this the serialized file ends mid-annotation and is
rejected by the parser's end-of-file check.) -/
def endsOk (s : Annovate ) : Prop :=
  match s.files.getLast? with
  | none => s.dir ≠ []
  | some p => p.2 ≠ []

instance (s : Annovate ) : Decidable (endsOk s) := by
  unfold endsOk
  rcases s.files.getLast? with _ | p
  · infer_instance
  · infer_instance

/-- Stores reachable from a successful parse (which includes every
bootstrapped file) through the public mutation API. -/
inductive Reachable : Annovate → Prop where
  | parsed (contents : Str) (s : Annovate ) :
      parse_annovate contents = .ok s → Reachable s
  | addDir (s : Annovate ) (a : Annotation ) :
      Reachable s → Reachable ( add_directory_annotation s a)
  | addFile (s : Annovate ) (n : Str) (a : Annotation ) :
      Reachable s → Reachable ( add_file_annotation s n a)
  | rmDir (s : Annovate ) (k : Str) :
      Reachable s → Reachable (remove_directory_annotation_entries s k).1
  | rmFile (s : Annovate ) (n k : Str) :
      Reachable s → Reachable (remove_file_annotation_entries s n k).1
  | dropFile (s : Annovate ) (n : Str) :
      Reachable s → Reachable (drop_file_annotations s n).1

instance {ε α : Type} [DecidableEq ε] [DecidableEq α] : DecidableEq (Except ε α) := fun a b =>
  match a, b with
  | .ok x, .ok y => if h : x = y then isTrue (by rw [h]) else isFalse (by simp [h])
  | .error x, .error y => if h : x = y then isTrue (by rw [h]) else isFalse (by simp [h])
  | .ok _, .error _ => isFalse (by simp)
  | .error _, .ok _ => isFalse (by simp)

theorem parseLineParts_at (st : ParseState) (r : Str)
    (hleg : st.last_leader ∈ (['@', '<', ' '] : List Char)) :
    parseLineParts st '@' r = .ok { st with
      result := { st.result with files := hmInsert r [] st.result.files },
      current_file := r, work_with_dir_fields := false,
      last_leader := '@', line_no := st.line_no + 1 } := by
  simp [parseLineParts, test_leader, hleg]

theorem parseLineParts_at_err (st : ParseState) (r : Str)
    (hleg : st.last_leader ∉ (['@', '<', ' '] : List Char)) :
    parseLineParts st '@' r = .error (.ParseError st.line_no '@') := by
  simp [parseLineParts, test_leader, hleg]

theorem parseLineParts_gt (st : ParseState) (r : Str)
    (hleg : st.last_leader ∈ (['@', '<', ' '] : List Char)) :
    parseLineParts st '>' r = .ok { st with
      current_key := r, current_value := [],
      last_leader := '>', line_no := st.line_no + 1 } := by
  simp [parseLineParts, test_leader, hleg]

theorem parseLineParts_gt_err (st : ParseState) (r : Str)
    (hleg : st.last_leader ∉ (['@', '<', ' '] : List Char)) :
    parseLineParts st '>' r = .error (.ParseError st.line_no '>') := by
  simp [parseLineParts, test_leader, hleg]

theorem parseLineParts_eq (st : ParseState) (r : Str)
    (hleg : st.last_leader ∈ (['>', '='] : List Char)) :
    parseLineParts st '=' r = .ok { st with
      current_value := appendValueLine st.current_value r,
      last_leader := '=', line_no := st.line_no + 1 } := by
  simp [parseLineParts, test_leader, hleg]

theorem parseLineParts_eq_err (st : ParseState) (r : Str)
    (hleg : st.last_leader ∉ (['>', '='] : List Char)) :
    parseLineParts st '=' r = .error (.ParseError st.line_no '=') := by
  simp [parseLineParts, test_leader, hleg]

theorem parseLineParts_lt (st : ParseState) (r : Str)
    (hleg : st.last_leader ∈ (['=', '>'] : List Char)) :
    parseLineParts st '<' r = .ok { st with
      result := commitAnno st.work_with_dir_fields st.current_file
        ⟨st.current_key, st.current_value, r⟩ st.result,
      last_leader := '<', line_no := st.line_no + 1 } := by
  simp [parseLineParts, test_leader, hleg]

theorem parseLineParts_lt_err (st : ParseState) (r : Str)
    (hleg : st.last_leader ∉ (['=', '>'] : List Char)) :
    parseLineParts st '<' r = .error (.ParseError st.line_no '<') := by
  simp [parseLineParts, test_leader, hleg]

theorem parseLineParts_other (st : ParseState) (c : Char) (r : Str)
    (hc : c ∉ (['@', '>', '=', '<'] : List Char)) :
    parseLineParts st c r = .error (.ParseError st.line_no c) := by
  simp only [List.mem_cons, List.mem_singleton, not_or] at hc
  obtain ⟨h1, h2, h3, h4⟩ := hc
  simp [parseLineParts, h1, h2, h3, h4]

theorem parseLine_at (st : ParseState) (l : Str) (c : Char) (r : Str)
    (e : extract_line_parts l = (c, r)) (hc : c = '@')
    (hleg : st.last_leader ∈ (['@', '<', ' '] : List Char)) :
    parseLine st l = .ok { st with
      result := { st.result with files := hmInsert r [] st.result.files },
      current_file := r, work_with_dir_fields := false,
      last_leader := '@', line_no := st.line_no + 1 } := by
  subst hc
  unfold parseLine
  rw [e]
  exact parseLineParts_at st r hleg

theorem parseLine_at_err (st : ParseState) (l : Str) (c : Char) (r : Str)
    (e : extract_line_parts l = (c, r)) (hc : c = '@')
    (hleg : st.last_leader ∉ (['@', '<', ' '] : List Char)) :
    parseLine st l = .error (.ParseError st.line_no c) := by
  subst hc
  unfold parseLine
  rw [e]
  exact parseLineParts_at_err st r hleg

theorem parseLine_gt (st : ParseState) (l : Str) (c : Char) (r : Str)
    (e : extract_line_parts l = (c, r)) (hc : c = '>')
    (hleg : st.last_leader ∈ (['@', '<', ' '] : List Char)) :
    parseLine st l = .ok { st with
      current_key := r, current_value := [],
      last_leader := '>', line_no := st.line_no + 1 } := by
  subst hc
  unfold parseLine
  rw [e]
  exact parseLineParts_gt st r hleg

theorem parseLine_gt_err (st : ParseState) (l : Str) (c : Char) (r : Str)
    (e : extract_line_parts l = (c, r)) (hc : c = '>')
    (hleg : st.last_leader ∉ (['@', '<', ' '] : List Char)) :
    parseLine st l = .error (.ParseError st.line_no c) := by
  subst hc
  unfold parseLine
  rw [e]
  exact parseLineParts_gt_err st r hleg

theorem parseLine_eq (st : ParseState) (l : Str) (c : Char) (r : Str)
    (e : extract_line_parts l = (c, r)) (hc : c = '=')
    (hleg : st.last_leader ∈ (['>', '='] : List Char)) :
    parseLine st l = .ok { st with
      current_value := appendValueLine st.current_value r,
      last_leader := '=', line_no := st.line_no + 1 } := by
  subst hc
  unfold parseLine
  rw [e]
  exact parseLineParts_eq st r hleg

theorem parseLine_eq_err (st : ParseState) (l : Str) (c : Char) (r : Str)
    (e : extract_line_parts l = (c, r)) (hc : c = '=')
    (hleg : st.last_leader ∉ (['>', '='] : List Char)) :
    parseLine st l = .error (.ParseError st.line_no c) := by
  subst hc
  unfold parseLine
  rw [e]
  exact parseLineParts_eq_err st r hleg

theorem parseLine_lt (st : ParseState) (l : Str) (c : Char) (r : Str)
    (e : extract_line_parts l = (c, r)) (hc : c = '<')
    (hleg : st.last_leader ∈ (['=', '>'] : List Char)) :
    parseLine st l = .ok { st with
      result := commitAnno st.work_with_dir_fields st.current_file
        ⟨st.current_key, st.current_value, r⟩ st.result,
      last_leader := '<', line_no := st.line_no + 1 } := by
  subst hc
  unfold parseLine
  rw [e]
  exact parseLineParts_lt st r hleg

theorem parseLine_lt_err (st : ParseState) (l : Str) (c : Char) (r : Str)
    (e : extract_line_parts l = (c, r)) (hc : c = '<')
    (hleg : st.last_leader ∉ (['=', '>'] : List Char)) :
    parseLine st l = .error (.ParseError st.line_no c) := by
  subst hc
  unfold parseLine
  rw [e]
  exact parseLineParts_lt_err st r hleg

theorem parseLine_other (st : ParseState) (l : Str) (c : Char) (r : Str)
    (e : extract_line_parts l = (c, r))
    (hc : c ∉ (['@', '>', '=', '<'] : List Char)) :
    parseLine st l = .error (.ParseError st.line_no c) := by
  unfold parseLine
  rw [e]
  exact parseLineParts_other st c r hc

theorem parseLine_line_no (st : ParseState) (l : Str) (st' : ParseState)
    (h : parseLine st l = .ok st') : st'.line_no = st.line_no + 1 := by
  rcases e : extract_line_parts l with ⟨c, r⟩
  by_cases h1 : c = '@'
  · by_cases hleg : st.last_leader ∈ (['@', '<', ' '] : List Char)
    · rw [parseLine_at st l c r e h1 hleg] at h; cases h; rfl
    · rw [parseLine_at_err st l c r e h1 hleg] at h; exact Except.noConfusion h
  · by_cases h2 : c = '>'
    · by_cases hleg : st.last_leader ∈ (['@', '<', ' '] : List Char)
      · rw [parseLine_gt st l c r e h2 hleg] at h; cases h; rfl
      · rw [parseLine_gt_err st l c r e h2 hleg] at h; exact Except.noConfusion h
    · by_cases h3 : c = '='
      · by_cases hleg : st.last_leader ∈ (['>', '='] : List Char)
        · rw [parseLine_eq st l c r e h3 hleg] at h; cases h; rfl
        · rw [parseLine_eq_err st l c r e h3 hleg] at h; exact Except.noConfusion h
      · by_cases h4 : c = '<'
        · by_cases hleg : st.last_leader ∈ (['=', '>'] : List Char)
          · rw [parseLine_lt st l c r e h4 hleg] at h; cases h; rfl
          · rw [parseLine_lt_err st l c r e h4 hleg] at h; exact Except.noConfusion h
        · rw [parseLine_other st l c r e (by simp [h1, h2, h3, h4])] at h
          exact Except.noConfusion h

theorem parseLines_append (ls1 ls2 : List Str) : ∀ st : ParseState,
    parseLines st (ls1 ++ ls2) = (parseLines st ls1).bind (fun st' => parseLines st' ls2) := by
  induction ls1 with
  | nil => intro st; rfl
  | cons l t ih =>
    intro st
    simp only [List.cons_append, parseLines]
    cases parseLine st l with
    | error e => rfl
    | ok st' => exact ih st'

theorem parseLines_line_no (ls : List Str) : ∀ st st' : ParseState,
    parseLines st ls = .ok st' → st'.line_no = st.line_no + ls.length := by
  induction ls with
  | nil => intro st st' h; cases h; simp
  | cons l t ih =>
    intro st st' h
    simp only [parseLines] at h
    cases hl : parseLine st l with
    | error e => rw [hl] at h; exact Except.noConfusion h
    | ok st1 =>
      rw [hl] at h
      have hr := ih st1 st' h
      have h2 := parseLine_line_no st l st1 hl
      rw [hr, h2, List.length_cons]
      omega

theorem trimRight_decompose (s : Str) :
    ∃ ws : Str, s = trimRight s ++ ws ∧ ∀ x ∈ ws, isWS x = true := by
  refine ⟨(s.reverse.takeWhile isWS).reverse, ?_, ?_⟩
  · conv_lhs => rw [← s.reverse_reverse,
      ← List.takeWhile_append_dropWhile (p := isWS) (l := s.reverse)]
    rw [List.reverse_append]
    rfl
  · intro x hx
    rw [List.mem_reverse] at hx
    exact List.mem_takeWhile_imp hx

theorem head?_dropWhile_not (l : List Char) (c : Char)
    (h : (l.dropWhile isWS).head? = some c) : isWS c = false := by
  induction l with
  | nil => simp [List.dropWhile] at h
  | cons a t ih =>
    rw [List.dropWhile_cons] at h
    by_cases ha : isWS a = true
    · rw [if_pos ha] at h; exact ih h
    · rw [if_neg ha] at h
      simp only [List.head?_cons, Option.some.injEq] at h
      rw [← h]
      exact Bool.not_eq_true _ ▸ ha

theorem trimRight_getLast?_not_ws (s : Str) (c : Char)
    (h : (trimRight s).getLast? = some c) : isWS c = false := by
  unfold trimRight at h
  rw [List.getLast?_reverse] at h
  exact head?_dropWhile_not s.reverse c h

theorem trimRight_unicode_decompose (s : Str) :
    ∃ ws : Str, s = trimRight_unicode s ++ ws ∧ ∀ x ∈ ws, isWS_unicode x = true := by
  refine ⟨(s.reverse.takeWhile isWS_unicode).reverse, ?_, ?_⟩
  · conv_lhs => rw [← s.reverse_reverse,
      ← List.takeWhile_append_dropWhile (p := isWS_unicode) (l := s.reverse)]
    rw [List.reverse_append]
    rfl
  · intro x hx
    rw [List.mem_reverse] at hx
    exact List.mem_takeWhile_imp hx

theorem head?_dropWhile_not_u (l : List Char) (c : Char)
    (h : (l.dropWhile isWS_unicode).head? = some c) : isWS_unicode c = false := by
  induction l with
  | nil => simp [List.dropWhile] at h
  | cons a t ih =>
    rw [List.dropWhile_cons] at h
    by_cases ha : isWS_unicode a = true
    · rw [if_pos ha] at h; exact ih h
    · rw [if_neg ha] at h
      simp only [List.head?_cons, Option.some.injEq] at h
      rw [← h]
      exact Bool.not_eq_true _ ▸ ha

theorem trimRight_unicode_getLast?_not_ws (s : Str) (c : Char)
    (h : (trimRight_unicode s).getLast? = some c) : isWS_unicode c = false := by
  unfold trimRight_unicode at h
  rw [List.getLast?_reverse] at h
  exact head?_dropWhile_not_u s.reverse c h

/-- C8 (amended): for every raw line whose first character is a single
UTF-8 byte, the classifier returns the first character as leader and the
rest of the line right-trimmed of Unicode whitespace; the empty line
yields the sentinel `(' ', [])`.  On a line whose first character
occupies more than one byte the program panics on the byte slice
`line[ 1.. ]` (modelled as `none`) instead of classifying.
`trimRight_unicode` strips exactly a maximal whitespace suffix. -/
theorem C8_line_classifier :
    extract_line_parts_rust [] = some (' ', []) ∧
    (∀ (c : Char) (rest : Str), utf8Len c = 1 →
      extract_line_parts_rust (c :: rest) = some (c, trimRight_unicode rest)) ∧
    (∀ (c : Char) (rest : Str), utf8Len c ≠ 1 →
      extract_line_parts_rust (c :: rest) = none) ∧
    (∀ s : Str, ∃ ws : Str, s = trimRight_unicode s ++ ws ∧ ∀ x ∈ ws, isWS_unicode x = true) ∧
    (∀ (s : Str) (c : Char), (trimRight_unicode s).getLast? = some c → isWS_unicode c = false) := by
  refine ⟨rfl, ?_, ?_, trimRight_unicode_decompose, trimRight_unicode_getLast?_not_ws⟩
  · intro c rest h
    simp [extract_line_parts_rust, h]
  · intro c rest h
    simp [extract_line_parts_rust, h]

theorem C8_line_classifier_witness :
    extract_line_parts_rust ['a', 'b', ' '] = some ('a', ['b']) ∧
    extract_line_parts_rust ['é', 'x'] = none ∧
    isWS_unicode 'b' = false := by
  refine ⟨?_, ?_, ?_⟩
  · rw [C8_line_classifier.2.1 'a' ['b', ' '] (by decide)]
    decide
  · exact C8_line_classifier.2.2.1 'é' ['x'] (by decide)
  · exact C8_line_classifier.2.2.2.2 ['b', ' '] 'b' (by decide)

/-- The original C8 fails on the program: the classifier returns no pair
at all for the line `é` — the byte slice `line[ 1.. ]` panics, byte 1 not
being a character boundary — and after an ASCII leader the program strips
the non-breaking space U+00A0, which an ASCII whitespace set keeps. -/
theorem C8_line_classifier_counterexample :
    extract_line_parts_rust ['é'] = none ∧
    extract_line_parts_rust ['a', '\u00A0'] = some ('a', []) ∧
    trimRight ['\u00A0'] = ['\u00A0'] := by
  refine ⟨by decide, by decide, by decide⟩

/-- C10: an empty line is rejected in every parser state with the current
1-based line number and the space placeholder character; consequently any
input whose line list contains an empty line after a successfully parsed
prefix fails there. -/
theorem C10_empty_line_fails :
    (∀ st : ParseState, parseLine st [] = .error (.ParseError st.line_no ' ')) ∧
    (∀ (contents : Str) (ls1 ls2 : List Str) (st : ParseState),
      linesOf contents = ls1 ++ [] :: ls2 →
      parseLines initState ls1 = .ok st →
      parse_annovate contents = .error (.ParseError (ls1.length + 1) ' ')) := by
  constructor
  · intro st; rfl
  · intro contents ls1 ls2 st hlines hok
    have hno : st.line_no = 1 + ls1.length := parseLines_line_no ls1 initState st hok
    have h1 : parseLines st ([] :: ls2) = .error (.ParseError st.line_no ' ') := by
      simp only [parseLines]
      rw [show parseLine st [] = .error (.ParseError st.line_no ' ') from rfl]
    unfold parse_annovate
    rw [hlines, parseLines_append, hok]
    simp only [Except.bind, h1]
    rw [hno, Nat.add_comm]

theorem C10_empty_line_fails_witness :
    parse_annovate ['\n'] = .error (.ParseError 1 ' ') ∧
    parseLine initState [] = .error (.ParseError 1 ' ') :=
  ⟨C10_empty_line_fails.2 ['\n'] [] [] initState (by decide) rfl,
   C10_empty_line_fails.1 initState⟩

/-- C2 (amended): on every line whose first character is a single UTF-8
byte (and on the empty line), the parser accepts exactly when the
leader's predecessor is legal per the spec's transition table, and
otherwise — including any unrecognized single-byte leader — fails with a
`ParseError` carrying the 1-based line number and the offending leader
character; on a line whose first character occupies more than one byte
the program panics in the classifier (modelled as `none`) before the
leader dispatch, so no `ParseError` is produced there.  The file `>k`,
`<c` parses to a single empty-valued annotation, and `=x` as the very
first line fails at line 1. -/
theorem C2_leader_transitions :
    (∀ (st : ParseState) (line : Str) (c : Char) (r : Str),
      extract_line_parts_rust line = some (c, r) →
      (spec_legal_transition st.last_leader c →
        ∃ st', parseLine_rust st line = some (.ok st')) ∧
      (¬ spec_legal_transition st.last_leader c →
        parseLine_rust st line = some (.error (.ParseError st.line_no c)))) ∧
    (∀ (st : ParseState) (line : Str),
      extract_line_parts_rust line = none → parseLine_rust st line = none) ∧
    parse_annovate_rust (">k\n<c\n".toList) = some (.ok ⟨[⟨['k'], [], ['c']⟩], []⟩) ∧
    parse_annovate_rust ("=x".toList) = some (.error (.ParseError 1 '=')) := by
  refine ⟨?_, ?_, by decide, by decide⟩
  · intro st line c r hsome
    have hpl : parseLine_rust st line = some (parseLineParts st c r) := by
      simp [parseLine_rust, hsome]
    by_cases h1 : c = '@'
    · subst h1
      constructor
      · intro hlegal
        have hleg : st.last_leader ∈ (['@', '<', ' '] : List Char) := by
          simpa [spec_legal_transition] using hlegal
        exact ⟨_, by rw [hpl, parseLineParts_at st r hleg]⟩
      · intro hnot
        have hleg : st.last_leader ∉ (['@', '<', ' '] : List Char) := by
          intro hmem; exact hnot (Or.inl ⟨rfl, hmem⟩)
        rw [hpl, parseLineParts_at_err st r hleg]
    · by_cases h2 : c = '>'
      · subst h2
        constructor
        · intro hlegal
          have hleg : st.last_leader ∈ (['@', '<', ' '] : List Char) := by
            simpa [spec_legal_transition] using hlegal
          exact ⟨_, by rw [hpl, parseLineParts_gt st r hleg]⟩
        · intro hnot
          have hleg : st.last_leader ∉ (['@', '<', ' '] : List Char) := by
            intro hmem; exact hnot (Or.inr (Or.inl ⟨rfl, hmem⟩))
          rw [hpl, parseLineParts_gt_err st r hleg]
      · by_cases h3 : c = '='
        · subst h3
          constructor
          · intro hlegal
            have hleg : st.last_leader ∈ (['>', '='] : List Char) := by
              simpa [spec_legal_transition] using hlegal
            exact ⟨_, by rw [hpl, parseLineParts_eq st r hleg]⟩
          · intro hnot
            have hleg : st.last_leader ∉ (['>', '='] : List Char) := by
              intro hmem; exact hnot (Or.inr (Or.inr (Or.inl ⟨rfl, hmem⟩)))
            rw [hpl, parseLineParts_eq_err st r hleg]
        · by_cases h4 : c = '<'
          · subst h4
            constructor
            · intro hlegal
              have hleg : st.last_leader ∈ (['=', '>'] : List Char) := by
                simpa [spec_legal_transition] using hlegal
              exact ⟨_, by rw [hpl, parseLineParts_lt st r hleg]⟩
            · intro hnot
              have hleg : st.last_leader ∉ (['=', '>'] : List Char) := by
                intro hmem; exact hnot (Or.inr (Or.inr (Or.inr ⟨rfl, hmem⟩)))
              rw [hpl, parseLineParts_lt_err st r hleg]
          · constructor
            · intro hlegal
              exfalso
              rcases hlegal with ⟨hc, _⟩ | ⟨hc, _⟩ | ⟨hc, _⟩ | ⟨hc, _⟩
              · exact h1 hc
              · exact h2 hc
              · exact h3 hc
              · exact h4 hc
            · intro _
              rw [hpl, parseLineParts_other st c r (by simp [h1, h2, h3, h4])]
  · intro st line h
    simp [parseLine_rust, h]

theorem C2_leader_transitions_witness :
    parseLine_rust initState ['=', 'x'] = some (.error (.ParseError 1 '=')) ∧
    parse_annovate_rust (">k\n<c\n".toList) = some (.ok ⟨[⟨['k'], [], ['c']⟩], []⟩) ∧
    parseLine_rust initState ['é'] = none :=
  ⟨(C2_leader_transitions.1 initState ['=', 'x'] '=' ['x'] (by decide)).2 (by decide),
   C2_leader_transitions.2.2.1,
   C2_leader_transitions.2.1 initState ['é'] (by decide)⟩

/-- The original C2 fails on the program: the line `é` carries an
unrecognized leader after an illegal predecessor, but the program panics
in the classifier instead of failing with a `ParseError` that carries the
offending leader character. -/
theorem C2_leader_transitions_counterexample :
    parseLine_rust initState ['é'] = none ∧
    parseLine_rust initState ['é'] ≠ some (.error (.ParseError 1 'é')) := by
  refine ⟨by decide, by decide⟩

/-- C3: when every line passes the leader checks but the last processed
leader is not `<`, parsing fails with the end-of-file line number (one
past the last line) and the blank placeholder leader; in particular for a
file ending in `>k`, one ending in a `=` line, and the empty file. -/
theorem C3_eof_not_closed :
    (∀ (contents : Str) (st : ParseState),
      parseLines initState (linesOf contents) = .ok st →
      st.last_leader ≠ '<' →
      parse_annovate contents = .error (.ParseError ((linesOf contents).length + 1) ' ')) ∧
    parse_annovate (">k".toList) = .error (.ParseError 2 ' ') ∧
    parse_annovate (">k\n=v".toList) = .error (.ParseError 3 ' ') ∧
    parse_annovate [] = .error (.ParseError 1 ' ') := by
  refine ⟨?_, by decide, by decide, by decide⟩
  intro contents st hok hne
  have Hno : st.line_no = 1 + (linesOf contents).length :=
    parseLines_line_no (linesOf contents) initState st hok
  unfold parse_annovate
  rw [hok]
  show (if st.last_leader = '<' then Except.ok st.result
        else Except.error (AnnoError.ParseError st.line_no ' ')) = _
  rw [if_neg hne, Hno, Nat.add_comm]

theorem C3_eof_not_closed_witness :
    parse_annovate (">k".toList) = .error (.ParseError 2 ' ') :=
  C3_eof_not_closed.1 (">k".toList)
    { result := ⟨[], []⟩, work_with_dir_fields := true, current_file := [],
      current_key := ['k'], current_value := [], last_leader := '>', line_no := 2 }
    (by decide) (by decide)

/-- C4: a `>` line resets the pending value buffer to empty; a `=` line
appends its remainder, inserting a `"\n"` separator exactly when the
buffer is non-empty; the four-line example yields one annotation with
value `"line1\nline2"`. -/
theorem C4_value_buffer :
    (∀ (st : ParseState) (line : Str) (st' : ParseState),
      (extract_line_parts line).1 = '>' → parseLine st line = .ok st' →
      st'.current_value = []) ∧
    (∀ (st : ParseState) (line : Str) (st' : ParseState),
      (extract_line_parts line).1 = '=' → parseLine st line = .ok st' →
      st'.current_value =
        (if st.current_value ≠ [] then st.current_value ++ ['\n'] else st.current_value)
          ++ (extract_line_parts line).2) ∧
    parse_annovate (">desc\n=line1\n=line2\n<ctx\n".toList) =
      .ok ⟨[⟨"desc".toList, "line1\nline2".toList, "ctx".toList⟩], []⟩ := by
  refine ⟨?_, ?_, by decide⟩
  · intro st line st' hc h
    rcases e : extract_line_parts line with ⟨c, r⟩
    rw [e] at hc
    by_cases hleg : st.last_leader ∈ (['@', '<', ' '] : List Char)
    · rw [parseLine_gt st line c r e hc hleg] at h
      cases h; rfl
    · rw [parseLine_gt_err st line c r e hc hleg] at h
      exact Except.noConfusion h
  · intro st line st' hc h
    rcases e : extract_line_parts line with ⟨c, r⟩
    rw [e] at hc
    by_cases hleg : st.last_leader ∈ (['>', '='] : List Char)
    · rw [parseLine_eq st line c r e hc hleg] at h
      cases h
      rfl
    · rw [parseLine_eq_err st line c r e hc hleg] at h
      exact Except.noConfusion h

theorem C4_value_buffer_witness :
    ({ result := ⟨[], []⟩, work_with_dir_fields := true, current_file := [],
       current_key := ['k'], current_value := [], last_leader := '>',
       line_no := 2 } : ParseState).current_value = [] ∧
    ({ result := ⟨[], []⟩, work_with_dir_fields := true, current_file := [],
       current_key := [], current_value := ['a', '\n', 'b'], last_leader := '=',
       line_no := 2 } : ParseState).current_value =
      (if (['a'] : Str) ≠ [] then ['a'] ++ ['\n'] else ['a']) ++ ['b'] :=
  ⟨C4_value_buffer.1 { initState with current_value := ['a'], last_leader := '<' } ['>', 'k']
      { result := ⟨[], []⟩, work_with_dir_fields := true, current_file := [],
        current_key := ['k'], current_value := [], last_leader := '>', line_no := 2 }
      rfl (by decide),
   C4_value_buffer.2.1 { initState with current_value := ['a'], last_leader := '>' } ['=', 'b']
      { result := ⟨[], []⟩, work_with_dir_fields := true, current_file := [],
        current_key := [], current_value := ['a', '\n', 'b'], last_leader := '=',
        line_no := 2 }
      rfl (by decide)⟩

theorem hmGet_hmInsert_self (k : Str) (v : AnnoContainer) :
    ∀ m : List (Str × AnnoContainer), hmGet k (hmInsert k v m) = some v := by
  intro m
  induction m with
  | nil => simp [hmInsert, hmGet]
  | cons p rest ih =>
    by_cases hp : p.1 = k
    · simp [hmInsert, hp, hmGet]
    · simp [hmInsert, hp, hmGet, ih]

/-- C9: an `@name` line for an already-registered filename replaces that
name's annotation list with a fresh empty list; annotations from the
earlier section are discarded. -/
theorem C9_duplicate_file_replaces :
    (∀ (st : ParseState) (line : Str) (st' : ParseState) (old : AnnoContainer),
      (extract_line_parts line).1 = '@' →
      hmGet (extract_line_parts line).2 st.result.files = some old →
      parseLine st line = .ok st' →
      hmGet (extract_line_parts line).2 st'.result.files = some []) ∧
    parse_annovate ("@f\n>k\n<c\n@f\n>k2\n<c2\n".toList) =
      .ok ⟨[], [(['f'], [⟨['k', '2'], [], ['c', '2']⟩])]⟩ := by
  refine ⟨?_, by decide⟩
  intro st line st' old hc _ h
  rcases e : extract_line_parts line with ⟨c, r⟩
  rw [e] at hc
  by_cases hleg : st.last_leader ∈ (['@', '<', ' '] : List Char)
  · rw [parseLine_at st line c r e hc hleg] at h
    cases h
    exact hmGet_hmInsert_self r [] st.result.files
  · rw [parseLine_at_err st line c r e hc hleg] at h
    exact Except.noConfusion h

theorem C9_duplicate_file_replaces_witness :
    hmGet ['f']
      ({ result := ⟨[], [(['f'], [])]⟩, work_with_dir_fields := false,
         current_file := ['f'], current_key := [], current_value := [],
         last_leader := '@', line_no := 2 } : ParseState).result.files = some [] :=
  C9_duplicate_file_replaces.1
    { initState with result := ⟨[], [(['f'], [⟨['k'], [], ['c']⟩])]⟩, last_leader := '<' }
    ['@', 'f']
    { result := ⟨[], [(['f'], [])]⟩, work_with_dir_fields := false,
      current_file := ['f'], current_key := [], current_value := [],
      last_leader := '@', line_no := 2 }
    [⟨['k'], [], ['c']⟩] rfl (by decide) (by decide)

theorem length_filter_lt_iff_exists (l : AnnoContainer) (key : Str) :
    (l.filter (fun x => x.key ≠ key)).length < l.length ↔ ∃ a ∈ l, a.key = key := by
  constructor
  · intro h
    by_contra hno
    push_neg at hno
    have hall : ∀ a ∈ l, (fun x : Annotation => decide ¬(x.key = key)) a = true :=
      fun a ha => by simpa using hno a ha
    have heq := List.filter_length_eq_length.2 hall
    simp only [ne_eq] at h
    omega
  · rintro ⟨a, ha, hk⟩
    have hle := List.length_filter_le (fun x : Annotation => decide ¬(x.key = key)) l
    by_contra hnl
    simp only [ne_eq] at hnl
    have heq : (l.filter (fun x : Annotation => decide ¬(x.key = key))).length = l.length := by
      omega
    have := List.filter_length_eq_length.1 heq a ha
    simp [hk] at this

theorem hmGet_hmModify_self (k : Str) (f : AnnoContainer → AnnoContainer) :
    ∀ (m : List (Str × AnnoContainer)) (v : AnnoContainer),
      hmGet k m = some v → hmGet k (hmModify k f m) = some (f v) := by
  intro m
  induction m with
  | nil => intro v h; exact Option.noConfusion h
  | cons p rest ih =>
    intro v h
    by_cases hp : p.1 = k
    · rw [hmGet, if_pos hp] at h
      cases h
      simp [hmModify, hp, hmGet]
    · rw [hmGet, if_neg hp] at h
      simp [hmModify, hp, hmGet, ih v h]

theorem hmGet_hmModify_other (k m0 : Str) (f : AnnoContainer → AnnoContainer)
    (hne : m0 ≠ k) : ∀ m : List (Str × AnnoContainer),
      hmGet m0 (hmModify k f m) = hmGet m0 m := by
  intro m
  induction m with
  | nil => rfl
  | cons p rest ih =>
    by_cases hp : p.1 = k
    · simp [hmModify, hp, hmGet, Ne.symm hne]
    · by_cases hm : p.1 = m0
      · simp [hmModify, hmGet, hp, hm, hne]
      · simp [hmModify, hmGet, hp, hm, ih]

/-- C5: key removal deletes every annotation with the given key, keeps the
survivors in order (the result is exactly the order-preserving filter),
returns true iff something was removed, and is a no-op returning false for
an unregistered filename. -/
theorem C5_remove_annotation_entries :
    (∀ (s : Annovate ) (key : Str),
      (remove_directory_annotation_entries s key).1.dir =
        s.dir.filter (fun x => x.key ≠ key) ∧
      (remove_directory_annotation_entries s key).1.files = s.files ∧
      ((remove_directory_annotation_entries s key).2 = true ↔ ∃ a ∈ s.dir, a.key = key)) ∧
    (∀ (s : Annovate ) (n key : Str), hmGet n s.files = none →
      remove_file_annotation_entries s n key = (s, false)) ∧
    (∀ (s : Annovate ) (n key : Str) (vals : AnnoContainer), hmGet n s.files = some vals →
      (remove_file_annotation_entries s n key).1.dir = s.dir ∧
      hmGet n (remove_file_annotation_entries s n key).1.files =
        some (vals.filter (fun x => x.key ≠ key)) ∧
      (∀ m : Str, m ≠ n → hmGet m (remove_file_annotation_entries s n key).1.files =
        hmGet m s.files) ∧
      ((remove_file_annotation_entries s n key).2 = true ↔ ∃ a ∈ vals, a.key = key)) := by
  refine ⟨?_, ?_, ?_⟩
  · intro s key
    refine ⟨rfl, rfl, ?_⟩
    rw [remove_directory_annotation_entries]
    simp only [decide_eq_true_eq]
    exact length_filter_lt_iff_exists s.dir key
  · intro s n key h
    rw [remove_file_annotation_entries, h]
  · intro s n key vals h
    rw [remove_file_annotation_entries, h]
    refine ⟨rfl, ?_, ?_, ?_⟩
    · exact hmGet_hmModify_self n _ s.files vals h
    · intro m hm
      exact hmGet_hmModify_other n m _ hm s.files
    · simp only [decide_eq_true_eq]
      exact length_filter_lt_iff_exists vals key

theorem C5_remove_annotation_entries_witness :
    (remove_directory_annotation_entries ⟨[⟨['k'], [], ['c']⟩], []⟩ ['k']).1.dir = [] ∧
    ((remove_directory_annotation_entries ⟨[⟨['k'], [], ['c']⟩], []⟩ ['k']).2 = true) ∧
    remove_file_annotation_entries ⟨[], []⟩ ['f'] ['k'] = (⟨[], []⟩, false) ∧
    hmGet ['f'] (remove_file_annotation_entries
      ⟨[], [(['f'], [⟨['k'], [], ['c']⟩, ⟨['j'], [], ['d']⟩])]⟩ ['f'] ['k']).1.files =
      some [⟨['j'], [], ['d']⟩] := by
  refine ⟨?_, ?_, ?_, ?_⟩
  · have h := (C5_remove_annotation_entries.1 ⟨[⟨['k'], [], ['c']⟩], []⟩ ['k']).1
    rw [h]
    decide
  · exact (C5_remove_annotation_entries.1 ⟨[⟨['k'], [], ['c']⟩], []⟩ ['k']).2.2.2
      ⟨⟨['k'], [], ['c']⟩, List.mem_singleton_self _, rfl⟩
  · exact C5_remove_annotation_entries.2.1 ⟨[], []⟩ ['f'] ['k'] (by decide)
  · have h := (C5_remove_annotation_entries.2.2
      ⟨[], [(['f'], [⟨['k'], [], ['c']⟩, ⟨['j'], [], ['d']⟩])]⟩ ['f'] ['k']
      [⟨['k'], [], ['c']⟩, ⟨['j'], [], ['d']⟩] (by decide)).2.1
    rw [h]
    decide

theorem hmGet_entryPush_self (k : Str) (a : Annotation ) :
    ∀ m : List (Str × AnnoContainer),
      hmGet k (entryPush k a m) = some ((hmGet k m).getD [] ++ [a]) := by
  intro m
  induction m with
  | nil => simp [entryPush, hmGet]
  | cons p rest ih =>
    by_cases hp : p.1 = k
    · simp [entryPush, hp, hmGet]
    · simp [entryPush, hp, hmGet, ih]

theorem mem_fst_entryPush (k : Str) (a : Annotation ) :
    ∀ m : List (Str × AnnoContainer), k ∈ (entryPush k a m).map Prod.fst := by
  intro m
  induction m with
  | nil => simp [entryPush]
  | cons p rest ih =>
    by_cases hp : p.1 = k
    · simp [entryPush, hp]
    · simp only [entryPush, if_neg hp, List.map_cons, List.mem_cons]
      exact Or.inr ih

theorem hmGet_none_of_not_mem (k : Str) :
    ∀ m : List (Str × AnnoContainer), k ∉ m.map Prod.fst → hmGet k m = none := by
  intro m
  induction m with
  | nil => intro _; rfl
  | cons p rest ih =>
    intro h
    simp only [List.map_cons, List.mem_cons, not_or] at h
    rw [hmGet, if_neg (fun he => h.1 he.symm)]
    exact ih h.2

theorem hmGet_hmErase_self (k : Str) :
    ∀ m : List (Str × AnnoContainer), (m.map Prod.fst).Nodup →
      hmGet k (hmErase k m) = none := by
  intro m
  induction m with
  | nil => intro _; rfl
  | cons p rest ih =>
    intro hnd
    simp only [List.map_cons, List.nodup_cons] at hnd
    by_cases hp : p.1 = k
    · rw [hmErase, if_pos hp]
      exact hmGet_none_of_not_mem k rest (hp ▸ hnd.1)
    · rw [hmErase, if_neg hp, hmGet, if_neg hp]
      exact ih hnd.2

/-- C6: adding a file annotation appends to the file's list, registering
the filename with a fresh empty list when absent, after which `get_files`
contains the name; dropping a file removes its entry entirely and returns
whether it existed, after which lookup reports `none` (not found), as
opposed to an empty list. -/
theorem C6_file_registration :
    (∀ (s : Annovate ) (n : Str) (a : Annotation ),
      get_file_annotations ( add_file_annotation s n a) n =
        some ((get_file_annotations s n).getD [] ++ [a]) ∧
      n ∈ get_files ( add_file_annotation s n a)) ∧
    (∀ (s : Annovate ) (n : Str),
      (drop_file_annotations s n).2 = (get_file_annotations s n).isSome ∧
      ((s.files.map Prod.fst).Nodup →
        get_file_annotations (drop_file_annotations s n).1 n = none)) := by
  constructor
  · intro s n a
    exact ⟨hmGet_entryPush_self n a s.files, mem_fst_entryPush n a s.files⟩
  · intro s n
    exact ⟨rfl, fun hnd => hmGet_hmErase_self n s.files hnd⟩

theorem C6_file_registration_witness :
    get_file_annotations ( add_file_annotation ⟨[], []⟩ ['a'] ⟨['k'], [], ['c']⟩) ['a'] =
      some [⟨['k'], [], ['c']⟩] ∧
    ['a'] ∈ get_files ( add_file_annotation ⟨[], []⟩ ['a'] ⟨['k'], [], ['c']⟩) ∧
    (drop_file_annotations ⟨[], [(['a'], [⟨['k'], [], ['c']⟩])]⟩ ['a']).2 = true ∧
    get_file_annotations
      (drop_file_annotations ⟨[], [(['a'], [⟨['k'], [], ['c']⟩])]⟩ ['a']).1 ['a'] = none := by
  refine ⟨?_, ?_, ?_, ?_⟩
  · have h := (C6_file_registration.1 ⟨[], []⟩ ['a'] ⟨['k'], [], ['c']⟩).1
    rw [h]
    decide
  · exact (C6_file_registration.1 ⟨[], []⟩ ['a'] ⟨['k'], [], ['c']⟩).2
  · have h := (C6_file_registration.2 ⟨[], [(['a'], [⟨['k'], [], ['c']⟩])]⟩ ['a']).1
    rw [h]
    decide
  · exact (C6_file_registration.2 ⟨[], [(['a'], [⟨['k'], [], ['c']⟩])]⟩ ['a']).2 (by decide)

theorem splitNL_ne_nil (s : Str) : splitNL s ≠ [] := by
  cases s with
  | nil => simp [splitNL]
  | cons c rest =>
    rw [splitNL]
    by_cases hc : c = '\n'
    · simp [hc]
    · rw [if_neg hc]
      cases splitNL rest with
      | nil => simp
      | cons l ls => simp

theorem splitNL_append (l : Str) (r : Str) (h : '\n' ∉ l) :
    splitNL (l ++ '\n' :: r) = l :: splitNL r := by
  induction l with
  | nil => simp [splitNL]
  | cons c t ih =>
    simp only [List.mem_cons, not_or] at h
    rw [List.cons_append, splitNL, if_neg (fun hc => h.1 hc.symm), ih h.2]

theorem rustLinesAux_cons (l : Str) (ls : List Str) (h : ls ≠ []) :
    rustLinesAux (l :: ls) = stripCR l :: rustLinesAux ls := by
  cases ls with
  | nil => exact absurd rfl h
  | cons a t => rfl

theorem linesOf_append (l : Str) (r : Str) (h : '\n' ∉ l) :
    linesOf (l ++ '\n' :: r) = stripCR l :: linesOf r := by
  unfold linesOf
  rw [splitNL_append l r h, rustLinesAux_cons l _ (splitNL_ne_nil r)]

theorem stripCR_cons (c : Char) (p : Str) (hc : isWS c = false)
    (hp : trimRight p = p) : stripCR (c :: p) = c :: p := by
  unfold stripCR
  cases hp2 : p with
  | nil =>
    rw [if_neg]
    intro hlast
    simp only [List.getLast?_singleton, Option.some.injEq] at hlast
    rw [hlast] at hc
    exact absurd hc (by decide)
  | cons q t =>
    rw [if_neg]
    intro hlast
    rw [List.getLast?_cons_cons] at hlast
    rw [← hp2] at hlast
    have := trimRight_getLast?_not_ws p '\r' (by rw [hp]; exact hlast)
    exact absurd this (by decide)

theorem linesOf_flattenLines (ls : List Str)
    (h : ∀ l ∈ ls, '\n' ∉ l ∧ stripCR l = l) :
    linesOf (flattenLines ls) = ls := by
  induction ls with
  | nil => rfl
  | cons l t ih =>
    have hl := h l (List.mem_cons_self l t)
    have hflat : flattenLines (l :: t) = l ++ '\n' :: flattenLines t := by
      simp [flattenLines]
    rw [hflat, linesOf_append l _ hl.1, hl.2,
      ih (fun x hx => h x (List.mem_cons_of_mem l hx))]

theorem parseLines_cons_ok (st st' : ParseState) (l : Str) (ls : List Str)
    (h : parseLine st l = .ok st') : parseLines st (l :: ls) = parseLines st' ls := by
  simp only [parseLines]
  rw [h]

/-- C7: the bootstrap file contents consist of exactly one directory-level
annotation with key `creation time`, the timestamp as value and the
timestamp plus the caller-supplied creation reason as context; re-parsing
those contents succeeds and yields a store with exactly that one
directory annotation and no registered files.  (The timestamp and reason
are parameters: the source formats the timestamp from local time, which
is free of newlines and trailing whitespace.) -/
theorem C7_bootstrap_roundtrip (ts reason : Str)
    (h1 : '\n' ∉ ts) (h2 : trimRight ts = ts)
    (h3 : '\n' ∉ reason)
    (h4 : trimRight (ts ++ (", ".toList ++ reason)) = ts ++ (", ".toList ++ reason)) :
    parse_annovate (create_new_annovate_content ts reason) =
      .ok ⟨[⟨"creation time".toList, ts, ts ++ (", ".toList ++ reason)⟩], []⟩ := by
  have e1 : extract_line_parts ('>' :: "creation time".toList) =
      ('>', "creation time".toList) := by decide
  have e2 : extract_line_parts ('=' :: ts) = ('=', ts) := by
    simp [extract_line_parts, h2]
  have e3 : extract_line_parts ('<' :: (ts ++ (", ".toList ++ reason))) =
      ('<', ts ++ (", ".toList ++ reason)) := by
    simp only [extract_line_parts, h4]
  have hnl3 : '\n' ∉ '<' :: (ts ++ (", ".toList ++ reason)) := by
    simp only [List.mem_cons, List.mem_append, not_or]
    refine ⟨by decide, h1, ?_, h3⟩
    decide
  have hlines : linesOf (create_new_annovate_content ts reason) =
      [('>' :: "creation time".toList), ('=' :: ts),
        ('<' :: (ts ++ (", ".toList ++ reason)))] := by
    have hshape : create_new_annovate_content ts reason =
        ('>' :: "creation time".toList) ++ '\n' ::
          (('=' :: ts) ++ '\n' ::
            (('<' :: (ts ++ (", ".toList ++ reason))) ++ '\n' :: [])) := by
      simp [create_new_annovate_content, List.append_assoc]
    rw [hshape]
    rw [linesOf_append _ _ (by decide)]
    rw [linesOf_append _ _ (by simpa using h1)]
    rw [linesOf_append _ _ hnl3]
    rw [show stripCR ('>' :: "creation time".toList) = '>' :: "creation time".toList
      from by decide]
    rw [stripCR_cons '=' ts (by decide) h2]
    rw [stripCR_cons '<' _ (by decide) h4]
    rfl
  have p1 : parseLine initState ('>' :: "creation time".toList) = .ok
      { result := ⟨[], []⟩, work_with_dir_fields := true, current_file := [],
        current_key := "creation time".toList, current_value := [],
        last_leader := '>', line_no := 2 } :=
    parseLine_gt initState _ '>' _ e1 rfl (by decide)
  have p2 : parseLine
      { result := ⟨[], []⟩, work_with_dir_fields := true, current_file := [],
        current_key := "creation time".toList, current_value := [],
        last_leader := '>', line_no := 2 } ('=' :: ts) = .ok
      { result := ⟨[], []⟩, work_with_dir_fields := true, current_file := [],
        current_key := "creation time".toList, current_value := ts,
        last_leader := '=', line_no := 3 } := by
    have := parseLine_eq
      { result := ⟨[], []⟩, work_with_dir_fields := true, current_file := [],
        current_key := "creation time".toList, current_value := [],
        last_leader := '>', line_no := 2 } ('=' :: ts) '=' ts e2 rfl (by decide)
    rw [this]
    simp [appendValueLine]
  have p3 : parseLine
      { result := ⟨[], []⟩, work_with_dir_fields := true, current_file := [],
        current_key := "creation time".toList, current_value := ts,
        last_leader := '=', line_no := 3 } ('<' :: (ts ++ (", ".toList ++ reason))) = .ok
      { result := ⟨[⟨"creation time".toList, ts, ts ++ (", ".toList ++ reason)⟩], []⟩,
        work_with_dir_fields := true, current_file := [],
        current_key := "creation time".toList, current_value := ts,
        last_leader := '<', line_no := 4 } := by
    have := parseLine_lt
      { result := ⟨[], []⟩, work_with_dir_fields := true, current_file := [],
        current_key := "creation time".toList, current_value := ts,
        last_leader := '=', line_no := 3 } ('<' :: (ts ++ (", ".toList ++ reason)))
      '<' (ts ++ (", ".toList ++ reason)) e3 rfl
      (by show ('=' : Char) ∈ (['=', '>'] : List Char); decide)
    rw [this]
    simp [commitAnno]
  unfold parse_annovate
  rw [hlines]
  rw [parseLines_cons_ok _ _ _ _ p1, parseLines_cons_ok _ _ _ _ p2,
    parseLines_cons_ok _ _ _ _ p3]
  rfl

theorem C7_bootstrap_roundtrip_witness :
    parse_annovate (create_new_annovate_content
        ("12.10.2026 10:20:30".toList) ("new annovate file".toList)) =
      .ok ⟨[⟨"creation time".toList, "12.10.2026 10:20:30".toList,
        ("12.10.2026 10:20:30".toList ++ (", ".toList ++ "new annovate file".toList))⟩],
        []⟩ :=
  C7_bootstrap_roundtrip ("12.10.2026 10:20:30".toList) ("new annovate file".toList)
    (by decide) (by decide) (by decide) (by decide)

theorem splitNL_no_nl (s : Str) : ∀ l ∈ splitNL s, '\n' ∉ l := by
  induction s with
  | nil => intro l hl; simp [splitNL] at hl; simp [hl]
  | cons c rest ih =>
    intro l hl
    rw [splitNL] at hl
    by_cases hc : c = '\n'
    · rw [if_pos hc] at hl
      rcases List.mem_cons.1 hl with h | h
      · simp [h]
      · exact ih l h
    · rw [if_neg hc] at hl
      cases hsp : splitNL rest with
      | nil => exact absurd hsp (splitNL_ne_nil rest)
      | cons l0 ls =>
        rw [hsp] at hl
        rcases List.mem_cons.1 hl with h | h
        · subst h
          intro hmem
          rcases List.mem_cons.1 hmem with h | h
          · exact hc h.symm
          · exact ih l0 (hsp ▸ List.mem_cons_self l0 ls) h
        · exact ih l (hsp ▸ List.mem_cons_of_mem l0 h)

theorem mem_stripCR (l : Str) (x : Char) (h : x ∈ stripCR l) : x ∈ l := by
  unfold stripCR at h
  split at h
  · exact List.dropLast_subset l h
  · exact h

theorem rustLinesAux_no_nl (cs : List Str) (hcs : ∀ l ∈ cs, '\n' ∉ l) :
    ∀ l ∈ rustLinesAux cs, '\n' ∉ l := by
  induction cs with
  | nil => intro l hl; simp [rustLinesAux] at hl
  | cons c t ih =>
    intro l hl
    cases t with
    | nil =>
      rw [rustLinesAux] at hl
      split at hl
      · simp at hl
      · simp only [List.mem_singleton] at hl
        exact hl ▸ hcs c (List.mem_cons_self c [])
    | cons a b =>
      rw [rustLinesAux_cons c (a :: b) (by simp)] at hl
      rcases List.mem_cons.1 hl with h | h
      · subst h
        intro hmem
        exact hcs c (List.mem_cons_self c _) (mem_stripCR c '\n' hmem)
      · exact ih (fun x hx => hcs x (List.mem_cons_of_mem c hx)) l h

theorem linesOf_no_nl (s : Str) : ∀ l ∈ linesOf s, '\n' ∉ l :=
  rustLinesAux_no_nl (splitNL s) (splitNL_no_nl s)

theorem hmInsert_absent (k : Str) (v : AnnoContainer) :
    ∀ m : List (Str × AnnoContainer), hmGet k m = none →
      hmInsert k v m = m ++ [(k, v)] := by
  intro m
  induction m with
  | nil => intro _; rfl
  | cons p rest ih =>
    intro h
    rw [hmGet] at h
    by_cases hp : p.1 = k
    · rw [if_pos hp] at h; exact Option.noConfusion h
    · rw [if_neg hp] at h
      rw [hmInsert, if_neg hp, ih h, List.cons_append]

theorem hmGet_append_none (k : Str) :
    ∀ m1 m2 : List (Str × AnnoContainer), hmGet k m1 = none →
      hmGet k (m1 ++ m2) = hmGet k m2 := by
  intro m1 m2
  induction m1 with
  | nil => intro _; rfl
  | cons p rest ih =>
    intro h
    rw [hmGet] at h
    by_cases hp : p.1 = k
    · rw [if_pos hp] at h; exact Option.noConfusion h
    · rw [if_neg hp] at h
      rw [List.cons_append, hmGet, if_neg hp]
      exact ih h

theorem hmModify_append_absent (k : Str) (f : AnnoContainer → AnnoContainer)
    (v : AnnoContainer) : ∀ m : List (Str × AnnoContainer), hmGet k m = none →
      hmModify k f (m ++ [(k, v)]) = m ++ [(k, f v)] := by
  intro m
  induction m with
  | nil => intro _; simp [hmModify]
  | cons p rest ih =>
    intro h
    rw [hmGet] at h
    by_cases hp : p.1 = k
    · rw [if_pos hp] at h; exact Option.noConfusion h
    · rw [if_neg hp] at h
      rw [List.cons_append, hmModify, if_neg hp, ih h, List.cons_append]

theorem foldl_commit_dir (c : AnnoContainer) (cf : Str) :
    ∀ res : Annovate ,
      c.foldl (fun r a => commitAnno true cf a r) res = { res with dir := res.dir ++ c } := by
  induction c with
  | nil => intro res; simp
  | cons a t ih =>
    intro res
    rw [List.foldl_cons, ih]
    simp [commitAnno]

theorem foldl_commit_file (cf : Str) (c : AnnoContainer) :
    ∀ (d : AnnoContainer) (m : List (Str × AnnoContainer)) (v : AnnoContainer),
      hmGet cf m = none →
      c.foldl (fun r a => commitAnno false cf a r)
        ⟨d, m ++ [(cf, v)]⟩ = ⟨d, m ++ [(cf, v ++ c)]⟩ := by
  induction c with
  | nil => intro d m v _; simp
  | cons a t ih =>
    intro d m v habs
    rw [List.foldl_cons]
    have hstep : commitAnno false cf a ⟨d, m ++ [(cf, v)]⟩ =
        (⟨d, m ++ [(cf, v ++ [a])]⟩ : Annovate ) := by
      simp only [commitAnno, if_neg (by simp : ¬(false = true))]
      rw [hmModify_append_absent cf _ v m habs]
    rw [hstep, ih d m (v ++ [a]) habs]
    simp

theorem parse_value_chunks (chunks : List Str) : ∀ st : ParseState,
    (∀ l ∈ chunks, trimRight l = l) →
    st.last_leader ∈ (['>', '='] : List Char) →
    parseLines st (chunks.map (fun l => '=' :: l)) = .ok { st with
      current_value := chunks.foldl appendValueLine st.current_value,
      last_leader := if chunks.isEmpty then st.last_leader else '=',
      line_no := st.line_no + chunks.length } := by
  induction chunks with
  | nil => intro st _ _; rfl
  | cons c cs ih =>
    intro st htrim hleg
    have e : extract_line_parts ('=' :: c) = ('=', c) := by
      simp [extract_line_parts, htrim c (List.mem_cons_self c cs)]
    rw [List.map_cons,
      parseLines_cons_ok _ _ _ _ (parseLine_eq st ('=' :: c) '=' c e rfl hleg)]
    rw [ih _ (fun l hl => htrim l (List.mem_cons_of_mem c hl)) (by simp)]
    have hlen : st.line_no + 1 + cs.length = st.line_no + (cs.length + 1) := by omega
    simp [hlen, ite_self]

theorem parse_anno_lines (a : Annotation ) (st : ParseState)
    (hgood : goodAnno a)
    (hleg : st.last_leader ∈ (['@', '<', ' '] : List Char)) :
    parseLines st (annoLines a) = .ok { st with
      current_key := a.key,
      current_value := a.value,
      last_leader := '<',
      line_no := st.line_no + (annoLines a).length,
      result := commitAnno st.work_with_dir_fields st.current_file a st.result } := by
  obtain ⟨hk, hv, hc⟩ := hgood
  have e1 : extract_line_parts ('>' :: a.key) = ('>', a.key) := by
    simp [extract_line_parts, hk.2]
  have e3 : extract_line_parts ('<' :: a.context) = ('<', a.context) := by
    simp [extract_line_parts, hc.2]
  have p1 : parseLine st ('>' :: a.key) = .ok { st with
      current_key := a.key,
      current_value := [],
      last_leader := '>',
      line_no := st.line_no + 1 } :=
    parseLine_gt st _ '>' _ e1 rfl hleg
  have q2 : parseLines { st with
      current_key := a.key,
      current_value := [],
      last_leader := '>',
      line_no := st.line_no + 1 } ((linesOf a.value).map (fun l => '=' :: l)) = .ok { st with
      current_key := a.key,
      current_value := (linesOf a.value).foldl appendValueLine [],
      last_leader := if (linesOf a.value).isEmpty then '>' else '=',
      line_no := st.line_no + 1 + (linesOf a.value).length } :=
    parse_value_chunks (linesOf a.value) _ hv.1 (by simp)
  have p3 : parseLine { st with
      current_key := a.key,
      current_value := (linesOf a.value).foldl appendValueLine [],
      last_leader := if (linesOf a.value).isEmpty then '>' else '=',
      line_no := st.line_no + 1 + (linesOf a.value).length } ('<' :: a.context) = .ok { st with
      current_key := a.key,
      current_value := (linesOf a.value).foldl appendValueLine [],
      last_leader := '<',
      line_no := st.line_no + 1 + (linesOf a.value).length + 1,
      result := commitAnno st.work_with_dir_fields st.current_file
        ⟨a.key, (linesOf a.value).foldl appendValueLine [], a.context⟩ st.result } := by
    have := parseLine_lt { st with
      current_key := a.key,
      current_value := (linesOf a.value).foldl appendValueLine [],
      last_leader := if (linesOf a.value).isEmpty then '>' else '=',
      line_no := st.line_no + 1 + (linesOf a.value).length } ('<' :: a.context)
      '<' a.context e3 rfl
      (by by_cases h : (linesOf a.value).isEmpty <;> simp [h])
    rw [this]
  have hfold : (linesOf a.value).foldl appendValueLine [] = a.value := hv.2
  rw [annoLines, parseLines_cons_ok _ _ _ _ p1, parseLines_append, q2]
  simp only [Except.bind]
  rw [parseLines_cons_ok _ _ _ _ p3]
  simp only [parseLines]
  rw [hfold]
  have hlen : st.line_no + 1 + (linesOf a.value).length + 1 =
      st.line_no + (annoLines a).length := by
    simp only [annoLines, List.length_cons, List.length_append,
      List.length_map, List.length_nil]
    omega
  rw [hlen]
  exact rfl

theorem parse_container_lines (c : AnnoContainer) : ∀ st : ParseState,
    (∀ a ∈ c, goodAnno a) →
    st.last_leader ∈ (['@', '<', ' '] : List Char) →
    ∃ k v, parseLines st (containerLines c) = .ok { st with
      current_key := k,
      current_value := v,
      last_leader := if c.isEmpty then st.last_leader else '<',
      line_no := st.line_no + (containerLines c).length,
      result := c.foldl
        (fun r a => commitAnno st.work_with_dir_fields st.current_file a r) st.result } := by
  induction c with
  | nil => intro st _ _; exact ⟨st.current_key, st.current_value, rfl⟩
  | cons a t ih =>
    intro st hgood hleg
    have hcl : containerLines (a :: t) = annoLines a ++ containerLines t := by
      simp [containerLines]
    have p1 := parse_anno_lines a st (hgood a (List.mem_cons_self a t)) hleg
    obtain ⟨k, v, hrest⟩ := ih { st with
      current_key := a.key,
      current_value := a.value,
      last_leader := '<',
      line_no := st.line_no + (annoLines a).length,
      result := commitAnno st.work_with_dir_fields st.current_file a st.result }
      (fun x hx => hgood x (List.mem_cons_of_mem a hx)) (by simp)
    refine ⟨k, v, ?_⟩
    rw [hcl, parseLines_append, p1]
    simp only [Except.bind]
    rw [hrest]
    have hlen : st.line_no + (annoLines a).length + (containerLines t).length =
        st.line_no + (containerLines (a :: t)).length := by
      rw [hcl, List.length_append]
      omega
    rw [hlen]
    simp [ite_self]
    omega

theorem parse_file_lines (name : Str) (annos : AnnoContainer) (st : ParseState)
    (hgoodn : goodLine name) (hgood : ∀ a ∈ annos, goodAnno a)
    (hleg : st.last_leader ∈ (['@', '<', ' '] : List Char))
    (habs : hmGet name st.result.files = none) :
    ∃ k v, parseLines st (('@' :: name) :: containerLines annos) = .ok { st with
      current_file := name,
      work_with_dir_fields := false,
      current_key := k,
      current_value := v,
      last_leader := if annos.isEmpty then '@' else '<',
      line_no := st.line_no + 1 + (containerLines annos).length,
      result := { st.result with files := st.result.files ++ [(name, annos)] } } := by
  have e : extract_line_parts ('@' :: name) = ('@', name) := by
    simp [extract_line_parts, hgoodn.2]
  have p1 : parseLine st ('@' :: name) = .ok { st with
      result := { st.result with files := hmInsert name [] st.result.files },
      current_file := name,
      work_with_dir_fields := false,
      last_leader := '@',
      line_no := st.line_no + 1 } := parseLine_at st _ '@' _ e rfl hleg
  rw [hmInsert_absent name [] st.result.files habs] at p1
  obtain ⟨k, v, hrest⟩ := parse_container_lines annos { st with
      result := { st.result with files := st.result.files ++ [(name, [])] },
      current_file := name,
      work_with_dir_fields := false,
      last_leader := '@',
      line_no := st.line_no + 1 } hgood (by simp)
  refine ⟨k, v, ?_⟩
  rw [parseLines_cons_ok _ _ _ _ p1, hrest]
  dsimp only
  rw [foldl_commit_file name annos st.result.dir st.result.files [] habs]
  simp

theorem lastLeaderFiles_cons (p : Str × AnnoContainer) (t : List (Str × AnnoContainer))
    (prev : Char) :
    lastLeaderFiles (p :: t) prev =
      lastLeaderFiles t (if p.2.isEmpty then '@' else '<') := by
  cases t with
  | nil => rfl
  | cons q r =>
    unfold lastLeaderFiles
    rw [List.getLast?_cons_cons]
    cases hq : (q :: r).getLast? with
    | none => exact absurd (List.getLast?_eq_none_iff.1 hq) (by simp)
    | some x => rfl

theorem parse_files_lines (fs : List (Str × AnnoContainer)) : ∀ st : ParseState,
    (∀ p ∈ fs, goodLine p.1 ∧ ∀ a ∈ p.2, goodAnno a) →
    (fs.map Prod.fst).Nodup →
    (∀ p ∈ fs, hmGet p.1 st.result.files = none) →
    st.last_leader ∈ (['@', '<', ' '] : List Char) →
    ∃ k v cf wwd, parseLines st (filesLines fs) = .ok { st with
      current_file := cf,
      work_with_dir_fields := wwd,
      current_key := k,
      current_value := v,
      last_leader := lastLeaderFiles fs st.last_leader,
      line_no := st.line_no + (filesLines fs).length,
      result := { st.result with files := st.result.files ++ fs } } := by
  induction fs with
  | nil =>
    intro st _ _ _ _
    refine ⟨st.current_key, st.current_value, st.current_file, st.work_with_dir_fields, ?_⟩
    simp [filesLines, lastLeaderFiles, parseLines]
  | cons p t ih =>
    intro st hgood hnd habs hleg
    have hfl : filesLines (p :: t) = (('@' :: p.1) :: containerLines p.2) ++ filesLines t := by
      simp [filesLines]
    obtain ⟨k1, v1, hp⟩ := parse_file_lines p.1 p.2 st
      (hgood p (List.mem_cons_self p t)).1 (hgood p (List.mem_cons_self p t)).2
      hleg (habs p (List.mem_cons_self p t))
    have hnd' : (t.map Prod.fst).Nodup := (List.nodup_cons.1 (by simpa using hnd)).2
    have hp_not : p.1 ∉ t.map Prod.fst := (List.nodup_cons.1 (by simpa using hnd)).1
    obtain ⟨k, v, cf, wwd, hrest⟩ := ih { st with
      current_file := p.1,
      work_with_dir_fields := false,
      current_key := k1,
      current_value := v1,
      last_leader := if p.2.isEmpty then '@' else '<',
      line_no := st.line_no + 1 + (containerLines p.2).length,
      result := { st.result with files := st.result.files ++ [(p.1, p.2)] } }
      (fun q hq => hgood q (List.mem_cons_of_mem p hq)) hnd'
      (by
        intro q hq
        dsimp only
        rw [hmGet_append_none q.1 st.result.files _ (habs q (List.mem_cons_of_mem p hq))]
        have hne : p.1 ≠ q.1 := by
          intro hh
          exact hp_not (hh ▸ List.mem_map_of_mem Prod.fst hq)
        simp [hmGet, hne])
      (by by_cases h : p.2.isEmpty <;> simp [h])
    refine ⟨k, v, cf, wwd, ?_⟩
    rw [hfl, parseLines_append, hp]
    simp only [Except.bind]
    rw [hrest]
    dsimp only
    rw [← lastLeaderFiles_cons p t st.last_leader]
    have hlen : st.line_no + 1 + (containerLines p.2).length + (filesLines t).length =
        st.line_no + (filesLines (p :: t)).length := by
      rw [hfl, List.length_append, List.length_cons]
      omega
    rw [hlen]
    have happ : (st.result.files ++ [(p.1, p.2)]) ++ t = st.result.files ++ (p :: t) := by
      rw [List.append_assoc, List.singleton_append]
    rw [happ, hfl]

theorem not_nl_cons (c : Char) (s : Str) (hc : ¬('\n' = c)) (hs : '\n' ∉ s) :
    '\n' ∉ c :: s := by
  intro hmem
  rcases List.mem_cons.1 hmem with h | h
  · exact hc h
  · exact hs h

theorem annoLines_good (a : Annotation ) (h : goodAnno a) :
    ∀ l ∈ annoLines a, '\n' ∉ l ∧ stripCR l = l := by
  intro l hl
  obtain ⟨hk, hv, hc⟩ := h
  rw [annoLines] at hl
  rcases List.mem_cons.1 hl with h1 | h1
  · subst h1
    exact ⟨not_nl_cons '>' a.key (by decide) hk.1, stripCR_cons '>' a.key (by decide) hk.2⟩
  · rcases List.mem_append.1 h1 with h2 | h2
    · obtain ⟨chunk, hchunk, rfl⟩ := List.mem_map.1 h2
      exact ⟨not_nl_cons '=' chunk (by decide) (linesOf_no_nl a.value chunk hchunk),
        stripCR_cons '=' chunk (by decide) (hv.1 chunk hchunk)⟩
    · rw [List.mem_singleton] at h2
      subst h2
      exact ⟨not_nl_cons '<' a.context (by decide) hc.1,
        stripCR_cons '<' a.context (by decide) hc.2⟩

theorem containerLines_good (c : AnnoContainer) (h : ∀ a ∈ c, goodAnno a) :
    ∀ l ∈ containerLines c, '\n' ∉ l ∧ stripCR l = l := by
  intro l hl
  rw [containerLines] at hl
  obtain ⟨li, hli, hl2⟩ := List.mem_flatten.1 hl
  obtain ⟨a, ha, rfl⟩ := List.mem_map.1 hli
  exact annoLines_good a (h a ha) l hl2

theorem filesLines_good (fs : List (Str × AnnoContainer))
    (h : ∀ p ∈ fs, goodLine p.1 ∧ ∀ a ∈ p.2, goodAnno a) :
    ∀ l ∈ filesLines fs, '\n' ∉ l ∧ stripCR l = l := by
  intro l hl
  rw [filesLines] at hl
  obtain ⟨li, hli, hl2⟩ := List.mem_flatten.1 hl
  obtain ⟨p, hp, rfl⟩ := List.mem_map.1 hli
  rcases List.mem_cons.1 hl2 with h1 | h1
  · subst h1
    exact ⟨not_nl_cons '@' p.1 (by decide) (h p hp).1.1,
      stripCR_cons '@' p.1 (by decide) (h p hp).1.2⟩
  · exact containerLines_good p.2 (h p hp).2 l h1

theorem storeLines_good (s : Annovate ) (hwf : WellFormed s) :
    ∀ l ∈ storeLines s, '\n' ∉ l ∧ stripCR l = l := by
  intro l hl
  rw [storeLines] at hl
  rcases List.mem_append.1 hl with h1 | h1
  · exact containerLines_good s.dir hwf.1 l h1
  · exact filesLines_good s.files hwf.2.1 l h1

/-- C1 (amended): for every store whose keys, contexts and filenames
contain no newline and no trailing whitespace, whose filenames are
pairwise distinct, whose values are exactly reconstructed from their line
decomposition, and whose serialized form ends with a context line,
parsing the serializer's output yields exactly the same store. -/
theorem C1_roundtrip_wellformed (s : Annovate ) (hwf : WellFormed s)
    (hend : endsOk s) : parse_annovate (serialize s) = .ok s := by
  obtain ⟨hdir, hfiles, hnd⟩ := hwf
  have hlines : linesOf (serialize s) = storeLines s :=
    linesOf_flattenLines (storeLines s) (storeLines_good s ⟨hdir, hfiles, hnd⟩)
  unfold parse_annovate
  rw [show initState = ({
    result := ⟨[], []⟩,
    work_with_dir_fields := true,
    current_file := [],
    current_key := [],
    current_value := [],
    last_leader := ' ',
    line_no := 1 } : ParseState) from rfl]
  rw [hlines, show storeLines s = containerLines s.dir ++ filesLines s.files from rfl]
  rw [parseLines_append]
  obtain ⟨k1, v1, hd⟩ := parse_container_lines s.dir {
    result := ⟨[], []⟩,
    work_with_dir_fields := true,
    current_file := [],
    current_key := [],
    current_value := [],
    last_leader := ' ',
    line_no := 1 } hdir (by decide)
  rw [hd]
  simp only [Except.bind]
  rw [foldl_commit_dir s.dir [] ⟨[], []⟩]
  obtain ⟨k, v, cf, wwd, hf⟩ := parse_files_lines s.files {
    result := { dir := [] ++ s.dir, files := [] },
    work_with_dir_fields := true,
    current_file := [],
    current_key := k1,
    current_value := v1,
    last_leader := if s.dir.isEmpty then ' ' else '<',
    line_no := 1 + (containerLines s.dir).length }
    hfiles hnd (fun p _ => rfl)
    (by by_cases h : s.dir.isEmpty <;> simp [h])
  rw [hf]
  dsimp only
  have hlast : lastLeaderFiles s.files (if s.dir.isEmpty then ' ' else '<') = '<' := by
    unfold endsOk at hend
    unfold lastLeaderFiles
    cases hgl : s.files.getLast? with
    | none =>
      rw [hgl] at hend
      have hdE : s.dir.isEmpty = false := by
        cases hd2 : s.dir with
        | nil => exact absurd hd2 hend
        | cons x xs => rfl
      simp [hdE]
    | some p =>
      rw [hgl] at hend
      have hp2 : p.2.isEmpty = false := by
        cases h2 : p.2 with
        | nil => exact absurd h2 hend
        | cons x xs => rfl
      simp [hp2]
  rw [hlast]
  simp

theorem C1_roundtrip_wellformed_witness :
    parse_annovate (serialize
      ⟨[⟨['k'], ['a', '\n', 'b'], ['c']⟩], [(['f'], [⟨['x'], [], ['y']⟩])]⟩) =
      .ok ⟨[⟨['k'], ['a', '\n', 'b'], ['c']⟩], [(['f'], [⟨['x'], [], ['y']⟩])]⟩ :=
  C1_roundtrip_wellformed
    ⟨[⟨['k'], ['a', '\n', 'b'], ['c']⟩], [(['f'], [⟨['x'], [], ['y']⟩])]⟩
    (by decide) (by decide)

theorem C1_roundtrip_counterexample :
    Reachable ( add_directory_annotation ⟨[⟨['k'], [], ['c']⟩], []⟩
      ⟨['q'], ['a', '\n'], ['x']⟩) ∧
    (parse_annovate (serialize ( add_directory_annotation ⟨[⟨['k'], [], ['c']⟩], []⟩
        ⟨['q'], ['a', '\n'], ['x']⟩))).map Annovate.dir ≠
      Except.ok ( add_directory_annotation ⟨[⟨['k'], [], ['c']⟩], []⟩
        ⟨['q'], ['a', '\n'], ['x']⟩).dir := by
  constructor
  · exact Reachable.addDir _ _ (Reachable.parsed (">k\n<c\n".toList) _ (by decide))
  · decide
